import Mathlib

/-! Verification of the layer modules in src/src/modules.py of the LinkSeg
repository: the residual convolutional front end, the transformer family
with its masked multi-head self-attention, the dilated convolutional stack,
and the two graph network wrappers. Tensors are shallowly embedded as
rational-valued nested lists (shape-level functions where only shapes are at
stake); the transcendental primitives supplied by the external tensor engine
(exp inside softmax and ELU, GELU, layer norm) are passed in as explicit
function parameters, since no property below depends on their values beyond
stated hypotheses such as positivity. Dropout layers are modelled at
inference time, where they are the identity. -/

abbrev Vec := List ℚ

abbrev Mat := List (List ℚ)

instance {ε α : Type} [DecidableEq ε] [DecidableEq α] : DecidableEq (Except ε α) := fun x y =>
  match x, y with
  | .ok a, .ok b =>
    if h : a = b then isTrue (by rw [h])
    else isFalse (by intro hc; injection hc; contradiction)
  | .error a, .error b =>
    if h : a = b then isTrue (by rw [h])
    else isFalse (by intro hc; injection hc; contradiction)
  | .ok _, .error _ => isFalse (by intro hc; injection hc)
  | .error _, .ok _ => isFalse (by intro hc; injection hc)

/-- Width of a matrix: the length of its first row (matrices of interest are
rectangular). -/
def width (M : Mat) : Nat := (M.headD []).length

/-- Dot product of two vectors. -/
def dot (a b : Vec) : ℚ := (List.zipWith (· * ·) a b).sum

/-- Elementwise sum of two vectors. -/
def vadd (a b : Vec) : Vec := List.zipWith (· + ·) a b

/-- Scalar multiple of a vector. -/
def smulVec (c : ℚ) (v : Vec) : Vec := v.map (fun x => c * x)

/-- Sum of the rows of a matrix. -/
def vsum : Mat → Vec
  | [] => []
  | [r] => r
  | r :: rs => vadd r (vsum rs)

/-- Linear combination of the rows of M with coefficients w, as computed by
the einsum contraction over the key axis. -/
def weightedSum (w : Vec) (M : Mat) : Vec := vsum (List.zipWith smulVec w M)

/-- Entry (i, j) of a matrix, defaulting to 0 out of range. -/
def getRC (M : Mat) (i j : Nat) : ℚ := (M.getD i []).getD j 0

/-- Rectangularity predicate: M has exactly r rows, each of length c. -/
def Rect (M : Mat) (r c : Nat) : Prop := M.length = r ∧ ∀ row ∈ M, row.length = c

instance (M : Mat) (r c : Nat) : Decidable (Rect M r c) := by
  unfold Rect
  infer_instance

def zeroMat (r c : Nat) : Mat := List.replicate r (List.replicate c 0)

def sizeMismatchMsg : String := "The size of tensor a must match the size of tensor b"

/-- Elementwise addition of two 2-D tensors with the broadcasting rule of the
external tensor engine: along each axis the sizes must agree or one of them
must be 1, in which case that operand is repeated along the axis. -/
def torchAdd (X Y : Mat) : Except String Mat :=
  if X.length = Y.length ∧ width X = width Y then
    .ok (List.zipWith vadd X Y)
  else if (X.length = Y.length ∨ X.length = 1 ∨ Y.length = 1)
      ∧ (width X = width Y ∨ width X = 1 ∨ width Y = 1) then
    .ok ((List.range (max X.length Y.length)).map (fun i =>
      (List.range (max (width X) (width Y))).map (fun j =>
        getRC X (if X.length = 1 then 0 else i) (if width X = 1 then 0 else j) +
          getRC Y (if Y.length = 1 then 0 else i) (if width Y = 1 then 0 else j))))
  else .error sizeMismatchMsg

/-- Matrix product: row i of the result is the vector of dot products of row
i of X with the columns of Y. -/
def matMul (X Y : Mat) : Mat :=
  X.map (fun r => (List.range (width Y)).map (fun j => dot r (Y.map (fun yr => yr.getD j 0))))

def matmulMsg : String := "mat1 and mat2 shapes cannot be multiplied"

/-- Matrix product with the dimension check performed by the external tensor
engine: every row of X must have exactly as many entries as Y has rows. -/
def matMulE (X Y : Mat) : Except String Mat :=
  if X.all (fun r => r.length = Y.length) then .ok (matMul X Y) else .error matmulMsg

/-- ELU activation with slope 1: x for positive x, exp x - 1 otherwise; the
exponential of the tensor engine is the parameter eta. -/
def elu (eta : ℚ → ℚ) (x : ℚ) : ℚ := if 0 < x then x else eta x - 1

def eluMat (eta : ℚ → ℚ) (M : Mat) : Mat := M.map (List.map (elu eta))

/-! ### ResFrontEnd (src/src/modules.py lines 11-74), shape level

C1 is a pure shape contract, so the front end is embedded at the level of
shape transformations: each tensor operation of the source maps an input
shape to an output shape, or fails where the engine would raise. -/

/-- Shape semantics of nn.Conv2d with a square kernel, given stride 1: the
channel count must match and each padded spatial extent must cover the
kernel; spatial sizes become h + 2p - k + 1. -/
def conv2dShape (inC outC kernel pad : Nat) :
    Nat × Nat × Nat × Nat → Option (Nat × Nat × Nat × Nat)
  | (b, c, h, w) =>
    if c = inC ∧ kernel ≤ h + 2 * pad ∧ kernel ≤ w + 2 * pad then
      some (b, outC, h + 2 * pad - kernel + 1, w + 2 * pad - kernel + 1)
    else none

/-- Shape semantics of nn.BatchNorm2d: requires the configured number of
features on the channel axis and preserves the shape. -/
def batchNorm2dShape (nf : Nat) (s : Nat × Nat × Nat × Nat) : Option (Nat × Nat × Nat × Nat) :=
  if s.2.1 = nf then some s else none

/-- Shape semantics of nn.MaxPool2d with kernel (ph, pw) and the default
stride equal to the kernel: spatial sizes are divided (floor) by the pooling
factors, which must not exceed them. -/
def maxPool2dShape (ph pw : Nat) :
    Nat × Nat × Nat × Nat → Option (Nat × Nat × Nat × Nat)
  | (b, c, h, w) =>
    if 0 < ph ∧ 0 < pw ∧ ph ≤ h ∧ pw ≤ w then some (b, c, h / ph, w / pw) else none

/-- Shape semantics of the residual addition x + out: in this block both
operands always carry identical shapes. -/
def addShape (s t : Nat × Nat × Nat × Nat) : Option (Nat × Nat × Nat × Nat) :=
  if s = t then some s else none

/-- Shape semantics of Res2DMaxPoolModule.forward: conv-bn-elu-conv-bn main
branch, a projection branch when the channel counts differ, residual
addition, ELU and max pooling. -/
def Res2DMaxPoolModule.forwardShape (inC outC ph pw : Nat) (s : Nat × Nat × Nat × Nat) :
    Option (Nat × Nat × Nat × Nat) := do
  let s1 ← conv2dShape inC outC 3 1 s
  let s1 ← batchNorm2dShape outC s1
  let s2 ← conv2dShape outC outC 3 1 s1
  let s2 ← batchNorm2dShape outC s2
  let sx ← if inC ≠ outC then do
      let t ← conv2dShape inC outC 3 1 s
      batchNorm2dShape outC t
    else pure s
  let s3 ← addShape sx s2
  maxPool2dShape ph pw s3

/-- Shape semantics of ResFrontEnd.forward: input batch norm over the
harmonics axis, the three residual blocks with pooling (2,2), (2,2), (2,1),
the permute-and-flatten to (batch, time, channels * freq), and the final
linear layer, whose input width nmels/2/2/2*conv_ndim must equal the
flattened width. -/
def ResFrontEnd.forwardShape (conv_ndim nharmonics nmels output_size : Nat)
    (s : Nat × Nat × Nat × Nat) : Option (Nat × Nat × Nat) := do
  let s ← batchNorm2dShape nharmonics s
  let s ← Res2DMaxPoolModule.forwardShape nharmonics conv_ndim 2 2 s
  let s ← Res2DMaxPoolModule.forwardShape conv_ndim conv_ndim 2 2 s
  let s ← Res2DMaxPoolModule.forwardShape conv_ndim conv_ndim 2 1 s
  let (b, c, f, t) := s
  let fc_dim := nmels / 2 / 2 / 2 * conv_ndim
  if c * f = fc_dim then some (b, t, output_size) else none

/-! ### Attention (src/src/modules.py lines 115-145)

Embedded at two levels. The per-slice functions below describe one batch
element: the linear projections, the einsum scores, softmax and the value
combination act independently on each batch slice. The mask block does not:
the pairwise mask built from the padded mask has shape (batch, n, n) while
the scores have shape (batch, heads, n, n), and the in-place masked fill
right-aligns the two, so the mask batch axis must broadcast against the head
axis - legal only for mask batch 1 or mask batch equal to heads, and in the
latter case with more than one element the pairwise mask of batch row k
lands on head k of every element. The batched functions attnMaskedBatch,
attnWeightsBatch, attnHeadOutsBatch and Attention.forwardBatch carry this
semantics; the per-slice masked functions are its batch-1 slice. The scale
dim_head ** -0.5 is an irrational real constant kept as an unconstrained
rational parameter: no claim depends on its value. -/

structure AttentionParams where
  heads : Nat
  dim_head : Nat
  scale : ℚ
  w_qkv : Mat
  w_out : Mat
  b_out : Vec

/-- Constructor of Attention: computes inner_dim = dim_head * heads, stores
the head count and scale, and builds the two linear layers (whose weight
values, chosen by the external initializer, are passed in). The source
performs no validation of any kind, so construction always succeeds. -/
def Attention.init (dim heads dim_head : Nat) (scale : ℚ) (w_qkv w_out : Mat)
    (b_out : Vec) : Except String AttentionParams :=
  .ok { heads := heads, dim_head := dim_head, scale := scale,
        w_qkv := w_qkv, w_out := w_out, b_out := b_out }

/-- nn.Linear without bias: y = x W^T, with W stored as (out, in) rows. -/
def linearNoBias (W : Mat) (x : Mat) : Mat :=
  x.map (fun r => W.map (fun wr => dot wr r))

/-- nn.Linear with bias: y = x W^T + b. -/
def linearB (W : Mat) (b : Vec) (x : Mat) : Mat :=
  x.map (fun r => List.zipWith (· + ·) (W.map (fun wr => dot wr r)) b)

/-- chunk(3, dim=-1): split the last axis of an n by 3*inner matrix into
three n by inner matrices. -/
def chunk3 (inner : Nat) (M : Mat) : Mat × Mat × Mat :=
  (M.map (fun r => r.take inner),
   M.map (fun r => (r.drop inner).take inner),
   M.map (fun r => (r.drop (2 * inner)).take inner))

/-- Head k of the rearrange b n (h d) to b h n d: columns k*d to k*d+d. -/
def headSlice (d k : Nat) (M : Mat) : Mat :=
  M.map (fun row => (row.drop (k * d)).take d)

/-- Per-head query matrices of the forward pass. -/
def attnQ (p : AttentionParams) (x : Mat) : List Mat :=
  (List.range p.heads).map (fun k =>
    headSlice p.dim_head k (chunk3 (p.heads * p.dim_head) (linearNoBias p.w_qkv x)).1)

/-- Per-head key matrices of the forward pass. -/
def attnK (p : AttentionParams) (x : Mat) : List Mat :=
  (List.range p.heads).map (fun k =>
    headSlice p.dim_head k (chunk3 (p.heads * p.dim_head) (linearNoBias p.w_qkv x)).2.1)

/-- Per-head value matrices of the forward pass. -/
def attnV (p : AttentionParams) (x : Mat) : List Mat :=
  (List.range p.heads).map (fun k =>
    headSlice p.dim_head k (chunk3 (p.heads * p.dim_head) (linearNoBias p.w_qkv x)).2.2)

/-- Scaled dot-product scores, einsum bhid,bhjd to bhij times scale: entry
(i, j) of head k is scale * dot of query row i with key row j. -/
def attnDots (p : AttentionParams) (x : Mat) : List Mat :=
  List.zipWith (fun Q K => Q.map (fun qr => K.map (fun kr => p.scale * dot qr kr)))
    (attnQ p x) (attnK p x)

/-- Most negative representable float32 score, -torch.finfo.max: the float32
maximum is (2 - 2^-23) * 2^127 = 2^128 - 2^104. -/
def maskValue : ℚ := -(2 ^ 128 - 2 ^ 104)

/-- Pairwise mask fill of one head: entry (i, j) keeps the score when both
padded mask bits i and j are set (the boolean outer product
mask[:, None, :] * mask[:, :, None]) and becomes maskValue otherwise. -/
def maskFill (padded : List Bool) (D : Mat) : Mat :=
  List.zipWith (fun pi row =>
    List.zipWith (fun pj s => if pi && pj then s else maskValue) padded row) padded D

def maskDimMsg : String := "mask has incorrect dimensions"

/-- Scores of one batch slice after the optional masking - the batch-1 case
of attnMaskedBatch below: the supplied mask row is left-padded with one
always-attend position, the assert compares its length with the score width,
and the pairwise fill is applied to every head. -/
def attnMasked (p : AttentionParams) (x : Mat) (mask : Option (List Bool)) :
    Except String (List Mat) :=
  match mask with
  | none => .ok (attnDots p x)
  | some m =>
    if (true :: m).length = x.length then
      .ok ((attnDots p x).map (maskFill (true :: m)))
    else .error maskDimMsg

/-- Softmax of one score row, with the exponential of the tensor engine as
the parameter eta. -/
def softmaxRow (eta : ℚ → ℚ) (r : Vec) : Vec :=
  r.map (fun s => eta s / (r.map eta).sum)

/-- Attention weights: row-wise softmax of the masked scores of every head. -/
def attnWeights (eta : ℚ → ℚ) (p : AttentionParams) (x : Mat)
    (mask : Option (List Bool)) : Except String (List Mat) :=
  (attnMasked p x mask).map (List.map (List.map (softmaxRow eta)))

/-- Per-head outputs, einsum bhij,bhjd to bhid: row i of head k is the
combination of the value rows of head k weighted by attention row i. -/
def attnHeadOuts (eta : ℚ → ℚ) (p : AttentionParams) (x : Mat)
    (mask : Option (List Bool)) : Except String (List Mat) :=
  (attnWeights eta p x mask).map (fun Ws =>
    List.zipWith (fun W V => W.map (fun arow => weightedSum arow V)) Ws (attnV p x))

/-- rearrange b h n d to b n (h d): concatenate the head outputs along the
feature axis. -/
def concatHeads (n : Nat) (Os : List Mat) : Mat :=
  (List.range n).map (fun i => (Os.map (fun O => O.getD i [])).flatten)

/-- Attention.forward on one batch slice: projections, scores, optional
mask, softmax, value combination, head concatenation and the output
projection (its dropout is the identity at inference). The batched call,
with the engine broadcast semantics of the masked fill, is
Attention.forwardBatch below. -/
def Attention.forward (eta : ℚ → ℚ) (p : AttentionParams) (x : Mat)
    (mask : Option (List Bool)) : Except String Mat :=
  (attnHeadOuts eta p x mask).map (fun Os =>
    linearB p.w_out p.b_out (concatHeads x.length Os))

def broadcastMsg : String :=
  "The expanded size of the tensor must match the existing size at non-singleton dimension 1"

/-- Batched scores after the optional masking, over the batch of input
slices. The pad and the length assert act on the last axis as in the
per-slice function; the in-place masked fill then broadcasts the
(batch, n, n) pairwise mask against the (batch, heads, n, n) scores
right-aligned, so the mask batch axis faces the head axis: the fill is legal
only when the mask batch is 1 or equals heads, and head k of every element
is filled with the pairwise expansion of padded mask row 0 (mask batch 1) or
padded mask row k (mask batch equal to heads); any other mask batch raises a
broadcast error. -/
def attnMaskedBatch (p : AttentionParams) (xs : List Mat)
    (mask : Option (List (List Bool))) : Except String (List (List Mat)) :=
  match mask with
  | none => .ok (xs.map (attnDots p))
  | some ms =>
    if (ms.headD []).length + 1 = (xs.headD []).length then
      if ms.length = 1 ∨ ms.length = p.heads then
        .ok (xs.map (fun x =>
          List.zipWith (fun k D =>
            maskFill (true :: ms.getD (if ms.length = 1 then 0 else k) []) D)
            (List.range p.heads) (attnDots p x)))
      else .error broadcastMsg
    else .error maskDimMsg

/-- Batched attention weights: the row softmax applied to every head of
every slice of the masked scores. -/
def attnWeightsBatch (eta : ℚ → ℚ) (p : AttentionParams) (xs : List Mat)
    (mask : Option (List (List Bool))) : Except String (List (List Mat)) :=
  (attnMaskedBatch p xs mask).map (List.map (List.map (List.map (softmaxRow eta))))

/-- Batched per-head outputs: for every slice, its attention weights against
its value rows. -/
def attnHeadOutsBatch (eta : ℚ → ℚ) (p : AttentionParams) (xs : List Mat)
    (mask : Option (List (List Bool))) : Except String (List (List Mat)) :=
  (attnWeightsBatch eta p xs mask).map (fun ws =>
    List.zipWith (fun Ws x =>
      List.zipWith (fun W V => W.map (fun arow => weightedSum arow V)) Ws (attnV p x))
      ws xs)

/-- Attention.forward over a full batch: the masked-score path goes through
attnMaskedBatch with the broadcast semantics of the engine; the heads of
every slice are then concatenated and projected. -/
def Attention.forwardBatch (eta : ℚ → ℚ) (p : AttentionParams) (xs : List Mat)
    (mask : Option (List (List Bool))) : Except String (List Mat) :=
  (attnHeadOutsBatch eta p xs mask).map (fun os =>
    List.zipWith (fun Os x => linearB p.w_out p.b_out (concatHeads x.length Os)) os xs)

/-! ### Transformer family (src/src/modules.py lines 81-170) -/

structure FeedForwardParams where
  w1 : Mat
  b1 : Vec
  w2 : Mat
  b2 : Vec

/-- FeedForward.forward: linear expansion, GELU (the engine primitive is the
parameter gelu), dropout (identity at inference), linear contraction,
dropout. -/
def FeedForward.forward (gelu : ℚ → ℚ) (p : FeedForwardParams) (x : Mat) : Mat :=
  linearB p.w2 p.b2 ((linearB p.w1 p.b1 x).map (List.map gelu))

/-- PreNorm: layer normalization followed by the wrapped sub-layer fn. The
nn.LayerNorm(dim) module attribute (mean-variance normalization with a
square root and learned affine) is held as the tensor transformation norm;
call-time keyword arguments are the parameter kw. -/
structure PreNorm (κ : Type) where
  norm : Mat → Mat
  fn : Mat → κ → Except String Mat

def PreNorm.forward {κ : Type} (p : PreNorm κ) (x : Mat) (kw : κ) : Except String Mat :=
  p.fn (p.norm x) kw

/-- Residual: the wrapped sub-layer fn. -/
structure Residual (κ : Type) where
  fn : Mat → κ → Except String Mat

/-- Residual.forward: fn(x, kwargs) + x with the addition of the tensor
engine. -/
def Residual.forward {κ : Type} (r : Residual κ) (x : Mat) (kw : κ) : Except String Mat := do
  let y ← r.fn x kw
  torchAdd y x

/-- Per-layer module attributes of one transformer layer: the two layer
norms and the attention and feed-forward weights built for that depth. -/
structure TransformerLayerSpec where
  attn_norm : Mat → Mat
  attn : AttentionParams
  ff_norm : Mat → Mat
  ff : FeedForwardParams

structure TransformerParams where
  layers : List (Residual (Option (List Bool)) × Residual Unit)

/-- Transformer constructor: for every depth, the pair
Residual(PreNorm(dim, Attention(...))) and
Residual(PreNorm(dim, FeedForward(...))). -/
def Transformer.init (eta gelu : ℚ → ℚ) (parts : List TransformerLayerSpec) :
    TransformerParams :=
  ⟨parts.map (fun q =>
    (Residual.mk (PreNorm.forward
        (PreNorm.mk q.attn_norm (fun x mask => Attention.forward eta q.attn x mask))),
     Residual.mk (PreNorm.forward
        (PreNorm.mk q.ff_norm (fun x _ => .ok (FeedForward.forward gelu q.ff x))))))⟩

/-- Transformer.forward: apply the (attention, feed forward) pairs in order,
threading the mask unchanged through every attention sub-layer. -/
def Transformer.forward (t : TransformerParams) (x : Mat) (mask : Option (List Bool)) :
    Except String Mat :=
  t.layers.foldl (fun acc l => do
    let x1 ← acc
    let x2 ← l.1.forward x1 mask
    l.2.forward x2 ()) (.ok x)

/-! ### ConvNetSSM (src/src/modules.py lines 201-234)

The dilated stack is embedded over shaped tensors (a shape together with the
flat data). The input batch norm (affine disabled, batch statistics only)
and the seven Conv_2d blocks with dilations 1,2,4,8,16,32,64 - each a
convolution, the external EMA channel attention, batch norms, a 1x1 shortcut,
ELU and dropout - are module attributes held as tensor transformations: the
claim about this module concerns only the rank canonicalization that
precedes them identically on every path. -/

structure STensor where
  shape : List Nat
  data : List ℚ

/-- unsqueeze(0): a new leading axis of extent 1; the flat data is
unchanged. -/
def STensor.unsqueeze0 (t : STensor) : STensor := ⟨1 :: t.shape, t.data⟩

/-- unsqueeze(1): a new axis of extent 1 at position 1 (only applied to
tensors of rank at least 1). -/
def STensor.unsqueeze1 (t : STensor) : STensor :=
  match t.shape with
  | a :: rest => ⟨a :: 1 :: rest, t.data⟩
  | [] => ⟨[1], t.data⟩

structure ConvNetSSMParams where
  input_bn : STensor → STensor
  conv1 : STensor → STensor
  conv2 : STensor → STensor
  conv3 : STensor → STensor
  conv4 : STensor → STensor
  conv5 : STensor → STensor
  conv6 : STensor → STensor
  conv7 : STensor → STensor

/-- ConvNetSSM.forward: rank canonicalization to 4-D (a 2-D input gains unit
batch and channel axes, a 3-D input a unit batch axis), input batch
normalization, then the seven dilated convolution blocks. -/
def ConvNetSSM.forward (m : ConvNetSSMParams) (x : STensor) : STensor :=
  let x := if x.shape.length = 2 then (x.unsqueeze0).unsqueeze1
           else if x.shape.length = 3 then x.unsqueeze0
           else x
  m.conv7 (m.conv6 (m.conv5 (m.conv4 (m.conv3 (m.conv2 (m.conv1 (m.input_bn x)))))))

/-! ### GCN_DENSE (src/src/modules.py lines 237-253) -/

structure DenseGraphConvParams where
  weight : Mat
  bias : Vec

/-- Modelled from the spec: the dense right-normalized graph convolution of
the external graph library (DenseGraphConv with norm right, not part of the
sources): aggregate the neighbor features A h, apply the weight, divide each
row by the degree (adjacency row sum) of its node, and add the bias - the
source constructs the layer with bias=True. A zero aggregate over a zero
degree yields zero. The weight rows play the in_feats role: the engine
rejects a feature width different from the weight row count. -/
def denseGraphConv (p : DenseGraphConvParams) (A h : Mat) : Except String Mat := do
  let agg ← matMulE A h
  let rst ← matMulE agg p.weight
  let degs := A.map (fun row => row.sum)
  let normed := List.zipWith (fun d row => row.map (fun v => v / d)) degs rst
  torchAdd normed [p.bias]

structure GCNDenseParams where
  in_size : Nat
  hid_size : Nat
  conv_1 : DenseGraphConvParams
  conv_2 : DenseGraphConvParams

/-- GCN_DENSE constructor: two DenseGraphConv layers, both built with input
width in_size and output width hid_size (the weight values come from the
external initializer, which also zeroes each bias at construction). -/
def GCN_DENSE.init (in_size hid_size : Nat) (w1 : Mat) (b1 : Vec) (w2 : Mat) (b2 : Vec) :
    GCNDenseParams :=
  ⟨in_size, hid_size, ⟨w1, b1⟩, ⟨w2, b2⟩⟩

/-- Value after layer 1 of GCN_DENSE.forward, before dropout: ELU of the
first convolution added residually to the input h. -/
def gcnLayer1 (eta : ℚ → ℚ) (p : GCNDenseParams) (A h : Mat) : Except String Mat := do
  let c1 ← denseGraphConv p.conv_1 A h
  torchAdd (eluMat eta c1) h

/-- GCN_DENSE.forward: layer 1 (convolution, ELU, residual), dropout
(identity at inference), layer 2 (convolution, residual), dropout. -/
def GCN_DENSE.forward (eta : ℚ → ℚ) (p : GCNDenseParams) (A h : Mat) : Except String Mat := do
  let h1 ← gcnLayer1 eta p A h
  let c2 ← denseGraphConv p.conv_2 A h1
  torchAdd c2 h1

/-! ### EGAT (src/src/modules.py lines 256-293) -/

/-- Edge-indexed graph: a node count and a list of directed (source,
destination) edges; edge k carries row k of the edge feature matrix. -/
structure DGLGraph where
  numNodes : Nat
  edges : List (Nat × Nat)

def DGLGraph.inDegree (g : DGLGraph) (v : Nat) : Nat :=
  (g.edges.filter (fun e => e.2 = v)).length

def DGLGraph.hasZeroInDegreeNode (g : DGLGraph) : Bool :=
  (List.range g.numNodes).any (fun v => g.inDegree v = 0)

def zeroInDegreeMsg : String := "There are 0-in-degree nodes in the graph"

/-- Modelled from the spec: the edge-feature graph attention layer of the
external graph library (EdgeGATConv, not part of the sources). The spec
fixes its input contract: zero-in-degree nodes are disallowed, so with
allow_zero_in_degree off the layer rejects any graph containing one instead
of zero-filling it. The multi-head attention aggregation itself
(edge-conditioned scoring with negative slope 0.2, residual per head) is an
external computation represented by the aggregate field, producing for each
node one vector per head. -/
structure EdgeGATConvParams where
  allow_zero_in_degree : Bool
  aggregate : DGLGraph → Mat → Mat → List Mat

def EdgeGATConv.forward (p : EdgeGATConvParams) (g : DGLGraph) (h efeat : Mat) :
    Except String (List Mat) :=
  if p.allow_zero_in_degree = false ∧ g.hasZeroInDegreeNode = true then
    .error zeroInDegreeMsg
  else .ok (p.aggregate g h efeat)

structure EGATParams where
  layer_1 : EdgeGATConvParams
  layer_2 : EdgeGATConvParams

/-- EGAT constructor: two EdgeGATConv layers, both with allow_zero_in_degree
disabled as in the source; the numeric hyperparameters size the external
aggregations, whose values are passed in. -/
def EGAT.init (in_size feat_size heads : Nat)
    (agg1 agg2 : DGLGraph → Mat → Mat → List Mat) : EGATParams :=
  ⟨⟨false, agg1⟩, ⟨false, agg2⟩⟩

/-- EGAT.forward: layer 1, flatten(1) concatenating the heads, ELU, layer 2,
mean over the heads. -/
def EGAT.forward (eta : ℚ → ℚ) (p : EGATParams) (g : DGLGraph) (h efeat : Mat) :
    Except String Mat := do
  let h1 ← EdgeGATConv.forward p.layer_1 g h efeat
  let h1 := h1.map List.flatten
  let h1 := h1.map (List.map (elu eta))
  let h2 ← EdgeGATConv.forward p.layer_2 g h1 efeat
  .ok (h2.map (fun hv => smulVec ((hv.length : ℚ)⁻¹) (vsum hv)))

/-- Shared concrete attention configuration used by witnesses and
counterexamples: one head of dimension one, unit weights. -/
def attnP1 : AttentionParams :=
  { heads := 1, dim_head := 1, scale := 1, w_qkv := [[1], [1], [1]],
    w_out := [[1]], b_out := [0] }

/-! ## Theorems -/

/-- C1 counterexample: the configured front end maps input shape
(2,1,96,200) to (2,50,128) and not to the claimed (2,200,128); the time
axis is halved by both (2,2) poolings, so 200 becomes 50. -/
theorem c1_counterexample :
    ResFrontEnd.forwardShape 64 1 96 128 (2, 1, 96, 200) = some (2, 50, 128) ∧
      ResFrontEnd.forwardShape 64 1 96 128 (2, 1, 96, 200) ≠ some (2, 200, 128) := by
  decide

/-- C1 (amended): a ResFrontEnd with nharmonics=1, nmels=96, conv_ndim=64,
output_size=128 maps an input of shape (2,1,96,200) to output shape
(2,50,128): the three residual blocks pool with factors (2,2), (2,2), (2,1),
so the frequency axis halves three times (96 to 12) and the time axis halves
twice (200 to 50), and the flattened width 12 * 64 equals the linear layer
input width 96/2/2/2*64. -/
theorem c1_resFrontEnd_shape :
    ResFrontEnd.forwardShape 64 1 96 128 (2, 1, 96, 200) = some (2, 50, 128) ∧
      96 / 2 / 2 / 2 * 64 = 12 * 64 := by
  decide

/-! ### Helper lemmas -/

theorem zipWithConst {α β γ : Type} (c : γ) (a : List α) (b : List β) :
    List.zipWith (fun _ _ => c) a b = List.replicate (min a.length b.length) c := by
  induction a generalizing b with
  | nil => simp
  | cons x xs ih =>
    cases b with
    | nil => simp
    | cons y ys => simp [List.replicate_succ, ih, Nat.succ_min_succ]

theorem smulVec_vadd (c : ℚ) (a b : Vec) :
    smulVec c (vadd a b) = vadd (smulVec c a) (smulVec c b) := by
  induction a generalizing b with
  | nil => simp [smulVec, vadd]
  | cons x xs ih =>
    cases b with
    | nil => simp [smulVec, vadd]
    | cons y ys => simpa [smulVec, vadd, mul_add] using ih ys

theorem vsum_cons_cons (a b : Vec) (l : Mat) :
    vsum (a :: b :: l) = vadd a (vsum (b :: l)) := rfl

theorem zipWith_replicate_left {α β γ : Type} (f : α → β → γ) (c : α) (l : List β) :
    List.zipWith f (List.replicate l.length c) l = l.map (f c) := by
  induction l with
  | nil => simp
  | cons x xs ih => simp [List.replicate_succ, ih]

theorem vsum_map_smul (c : ℚ) (M : Mat) : vsum (M.map (smulVec c)) = smulVec c (vsum M) := by
  induction M with
  | nil => simp [vsum, smulVec]
  | cons r rs ih =>
    cases rs with
    | nil => simp [vsum]
    | cons r2 rs2 =>
      have h := ih
      simp only [List.map_cons] at h ⊢
      rw [vsum_cons_cons, vsum_cons_cons, smulVec_vadd, h]

theorem weightedSum_replicate (c : ℚ) (M : Mat) :
    weightedSum (List.replicate M.length c) M = smulVec c (vsum M) := by
  unfold weightedSum
  rw [zipWith_replicate_left, vsum_map_smul]

theorem softmaxRow_sum (eta : ℚ → ℚ) (hpos : ∀ q, 0 < eta q) (r : Vec) (hr : r ≠ []) :
    (softmaxRow eta r).sum = 1 := by
  have hS : 0 < (r.map eta).sum := by
    refine List.sum_pos _ ?_ (by simpa using hr)
    intro y hy
    obtain ⟨z, _, rfl⟩ := List.mem_map.mp hy
    exact hpos z
  unfold softmaxRow
  rw [show (fun s => eta s / (r.map eta).sum)
        = (fun t => t * ((r.map eta).sum)⁻¹) ∘ eta by funext s; simp [div_eq_mul_inv]]
  rw [← List.map_map]
  rw [show ((r.map eta).map (fun t => t * ((r.map eta).sum)⁻¹)).sum
        = (r.map eta).sum * ((r.map eta).sum)⁻¹ by
    simpa using List.sum_map_mul_right (r.map eta) id ((r.map eta).sum)⁻¹]
  exact mul_inv_cancel₀ hS.ne'

theorem softmaxRow_replicate (eta : ℚ → ℚ) (hpos : ∀ q, 0 < eta q) (n : Nat) (hn : 0 < n)
    (c : ℚ) : softmaxRow eta (List.replicate n c) = List.replicate n ((n : ℚ)⁻¹) := by
  unfold softmaxRow
  rw [List.map_replicate, List.map_replicate, List.sum_replicate, nsmul_eq_mul]
  congr 1
  have h1 : (n : ℚ) ≠ 0 := by exact_mod_cast hn.ne'
  have h2 : eta c ≠ 0 := (hpos c).ne'
  field_simp
  ring

theorem attnQ_length (p : AttentionParams) (x : Mat) : (attnQ p x).length = p.heads := by
  simp [attnQ]

theorem attnK_length (p : AttentionParams) (x : Mat) : (attnK p x).length = p.heads := by
  simp [attnK]

theorem attnV_length (p : AttentionParams) (x : Mat) : (attnV p x).length = p.heads := by
  simp [attnV]

theorem attnQ_rows (p : AttentionParams) (x : Mat) : ∀ Q ∈ attnQ p x, Q.length = x.length := by
  intro Q hQ
  simp only [attnQ, List.mem_map] at hQ
  obtain ⟨k, _, rfl⟩ := hQ
  simp [headSlice, chunk3, linearNoBias]

theorem attnK_rows (p : AttentionParams) (x : Mat) : ∀ K ∈ attnK p x, K.length = x.length := by
  intro K hK
  simp only [attnK, List.mem_map] at hK
  obtain ⟨k, _, rfl⟩ := hK
  simp [headSlice, chunk3, linearNoBias]

theorem attnV_rows (p : AttentionParams) (x : Mat) : ∀ V ∈ attnV p x, V.length = x.length := by
  intro V hV
  simp only [attnV, List.mem_map] at hV
  obtain ⟨k, _, rfl⟩ := hV
  simp [headSlice, chunk3, linearNoBias]

theorem attnDots_length (p : AttentionParams) (x : Mat) : (attnDots p x).length = p.heads := by
  simp [attnDots, attnQ_length, attnK_length]

theorem attnDots_rows (p : AttentionParams) (x : Mat) :
    ∀ D ∈ attnDots p x, D.length = x.length ∧ ∀ ρ ∈ D, ρ.length = x.length := by
  intro D hD
  unfold attnDots at hD
  obtain ⟨i, hi, hEq⟩ := List.mem_iff_getElem.mp hD
  rw [List.getElem_zipWith] at hEq
  have hQi : i < (attnQ p x).length := by
    simp only [List.length_zipWith, lt_min_iff] at hi
    exact hi.1
  have hKi : i < (attnK p x).length := by
    simp only [List.length_zipWith, lt_min_iff] at hi
    exact hi.2
  subst hEq
  constructor
  · rw [List.length_map]
    exact attnQ_rows p x _ (List.getElem_mem hQi)
  · intro ρ hρ
    obtain ⟨qr, _, rfl⟩ := List.mem_map.mp hρ
    rw [List.length_map]
    exact attnK_rows p x _ (List.getElem_mem hKi)

theorem maskFill_length (padded : List Bool) (D : Mat) :
    (maskFill padded D).length = min padded.length D.length := by
  simp [maskFill]

theorem maskFill_getElem (padded : List Bool) (D : Mat) (i : Nat)
    (hiP : i < padded.length) (hiD : i < D.length)
    (hmf : i < (maskFill padded D).length) :
    (maskFill padded D)[i] =
      List.zipWith (fun pj s => if padded[i] && pj then s else maskValue) padded D[i] := by
  simp [maskFill, List.getElem_zipWith]

theorem maskFill_row_allMasked (padded : List Bool) (D : Mat) (i n : Nat)
    (hp : padded.length = n) (hD : D.length = n) (hrows : ∀ ρ ∈ D, ρ.length = n)
    (hi : i < n) (hbit : padded.getD i true = false) :
    (maskFill padded D).getD i [] = List.replicate n maskValue := by
  have hiP : i < padded.length := hp ▸ hi
  have hiD : i < D.length := hD ▸ hi
  have hlen : i < (maskFill padded D).length := by rw [maskFill_length]; omega
  rw [List.getD_eq_getElem _ _ hlen, maskFill_getElem padded D i hiP hiD]
  have hb : padded[i] = false := by
    rw [List.getD_eq_getElem padded true hiP] at hbit
    exact hbit
  rw [hb]
  rw [show (fun (pj : Bool) (s : ℚ) => if false && pj then s else maskValue)
        = (fun _ _ => maskValue) by funext pj s; simp]
  rw [zipWithConst, hp, hrows _ (List.getElem_mem hiD)]
  simp

theorem attnMasked_some (p : AttentionParams) (x : Mat) (m : List Bool)
    (hm : (true :: m).length = x.length) :
    attnMasked p x (some m) = .ok ((attnDots p x).map (maskFill (true :: m))) := by
  simp [attnMasked, hm]

theorem attnMasked_rows (p : AttentionParams) (x : Mat) (mask : Option (List Bool))
    (L : List Mat) (hok : attnMasked p x mask = .ok L) :
    ∀ M ∈ L, ∀ r ∈ M, r.length = x.length := by
  intro M hM r hr
  cases mask with
  | none =>
    simp only [attnMasked, Except.ok.injEq] at hok
    subst hok
    exact (attnDots_rows p x M hM).2 r hr
  | some m =>
    rw [show attnMasked p x (some m)
          = if (true :: m).length = x.length
            then .ok ((attnDots p x).map (maskFill (true :: m)))
            else .error maskDimMsg from rfl] at hok
    by_cases hm : (true :: m).length = x.length
    · rw [if_pos hm] at hok
      injection hok with hok
      subst hok
      obtain ⟨D, hD, rfl⟩ := List.mem_map.mp hM
      obtain ⟨i, hi, rfl⟩ := List.mem_iff_getElem.mp hr
      have hiP : i < (true :: m).length := by
        rw [maskFill_length, lt_min_iff] at hi
        exact hi.1
      have hiD : i < D.length := by
        rw [maskFill_length, lt_min_iff] at hi
        exact hi.2
      rw [maskFill_getElem _ _ _ hiP hiD, List.length_zipWith, hm,
        (attnDots_rows p x D hD).2 _ (List.getElem_mem hiD)]
      simp
    · rw [if_neg hm] at hok
      exact absurd hok (by simp)

/-- Branch equation of attnMaskedBatch on a supplied mask. -/
theorem attnMaskedBatch_some (p : AttentionParams) (xs : List Mat)
    (ms : List (List Bool)) :
    attnMaskedBatch p xs (some ms)
      = if (ms.headD []).length + 1 = (xs.headD []).length then
          if ms.length = 1 ∨ ms.length = p.heads then
            .ok (xs.map (fun x =>
              List.zipWith (fun k D =>
                maskFill (true :: ms.getD (if ms.length = 1 then 0 else k) []) D)
                (List.range p.heads) (attnDots p x)))
          else .error broadcastMsg
        else .error maskDimMsg := rfl

/-- Elementwise description of the pairwise mask fill: with a padded mask
row and score matrix of matching square extent n, entry (i, j) keeps the
score when both mask bits are set and becomes the most negative
representable score otherwise. -/
theorem maskFill_getRC (padded : List Bool) (D : Mat) (n : Nat)
    (hp : padded.length = n) (hD : D.length = n) (hrows : ∀ ρ ∈ D, ρ.length = n)
    (i j : Nat) (hi : i < n) (hj : j < n) :
    getRC (maskFill padded D) i j =
      if (padded.getD i false) && (padded.getD j false) then getRC D i j
      else maskValue := by
  have hiP : i < padded.length := by omega
  have hjP : j < padded.length := by omega
  have hiD : i < D.length := by omega
  have hrowlen : D[i].length = n := hrows _ (List.getElem_mem hiD)
  have hlenMF : i < (maskFill padded D).length := by rw [maskFill_length]; omega
  unfold getRC
  rw [List.getD_eq_getElem _ _ hlenMF, maskFill_getElem _ _ _ hiP hiD]
  have hjz : j < (List.zipWith
      (fun pj s => if padded[i] && pj then s else maskValue) padded D[i]).length := by
    rw [List.length_zipWith]; omega
  rw [List.getD_eq_getElem _ _ hjz, List.getElem_zipWith,
    List.getD_eq_getElem padded false hiP, List.getD_eq_getElem padded false hjP,
    List.getD_eq_getElem D [] hiD, List.getD_eq_getElem D[i] 0 (by omega)]

/-- C2 counterexample: a batched forward call on a batch of one two-position
input with a boolean mask of shape (batch, sequence) fails the mask
dimension assertion instead of succeeding: the mask row is left-padded to
length 3, which no longer matches the score width 2. -/
theorem c2_counterexample :
    Attention.forwardBatch (fun _ => 1) attnP1 [[[1], [1]]] (some [[true, true]])
      = .error maskDimMsg := by
  rfl

/-- C2 (amended): a forward call with a boolean mask of shape
(batch, sequence) always fails the mask-dimension assertion. With a mask of
shape (batch, sequence - 1) the assertion passes - the left pad by one
always-attend position brings each row to length sequence - and the call
then succeeds exactly when the mask batch is 1 or equals the head count,
because the in-place fill broadcasts the pairwise (batch, n, n) mask against
the head axis of the (batch, heads, n, n) scores: on success, head k of
every slice is masked with the pairwise expansion of padded mask row 0 (mask
batch 1) or padded mask row k (mask batch equal to heads), every masked
score entry being set to the most negative representable score before
softmax; for any other mask batch the fill raises a broadcast error. -/
theorem c2_mask_semantics (eta : ℚ → ℚ) (p : AttentionParams) (xs : List Mat)
    (ms : List (List Bool)) (n : Nat)
    (hxs : xs ≠ []) (hms : ms ≠ [])
    (hxn : ∀ x ∈ xs, x.length = n) (hmn : ∀ m ∈ ms, m.length + 1 = n) :
    ((ms.length = 1 ∨ ms.length = p.heads) →
      (∃ ys, Attention.forwardBatch eta p xs (some ms) = .ok ys) ∧
      attnMaskedBatch p xs (some ms) = .ok (xs.map (fun x =>
        List.zipWith (fun k D =>
          maskFill (true :: ms.getD (if ms.length = 1 then 0 else k) []) D)
          (List.range p.heads) (attnDots p x))) ∧
      (∀ x ∈ xs, ∀ k, k < p.heads → ∀ i j : Nat, i < n → j < n →
        getRC (maskFill (true :: ms.getD (if ms.length = 1 then 0 else k) [])
            ((attnDots p x).getD k [])) i j
          = if ((true :: ms.getD (if ms.length = 1 then 0 else k) []).getD i false)
               && ((true :: ms.getD (if ms.length = 1 then 0 else k) []).getD j false)
            then getRC ((attnDots p x).getD k []) i j
            else maskValue)) ∧
    (¬(ms.length = 1 ∨ ms.length = p.heads) →
      Attention.forwardBatch eta p xs (some ms) = .error broadcastMsg) := by
  have hw : (ms.headD []).length + 1 = (xs.headD []).length := by
    cases xs with
    | nil => exact absurd rfl hxs
    | cons x0 xt =>
      cases ms with
      | nil => exact absurd rfl hms
      | cons m0 mt =>
        simp only [List.headD_cons]
        rw [hxn x0 (List.mem_cons_self x0 xt), hmn m0 (List.mem_cons_self m0 mt)]
  constructor
  · intro hb
    have hM : attnMaskedBatch p xs (some ms) = .ok (xs.map (fun x =>
        List.zipWith (fun k D =>
          maskFill (true :: ms.getD (if ms.length = 1 then 0 else k) []) D)
          (List.range p.heads) (attnDots p x))) := by
      rw [attnMaskedBatch_some, if_pos hw, if_pos hb]
    refine ⟨?_, hM, ?_⟩
    · unfold Attention.forwardBatch attnHeadOutsBatch attnWeightsBatch
      rw [hM]
      exact ⟨_, rfl⟩
    · intro x hx k hk i j hi hj
      have hidx : (if ms.length = 1 then 0 else k) < ms.length := by
        by_cases h1 : ms.length = 1
        · rw [if_pos h1, h1]
          omega
        · rw [if_neg h1]
          rcases hb with hb1 | hbh
          · exact absurd hb1 h1
          · omega
      have hmrow : ms.getD (if ms.length = 1 then 0 else k) [] ∈ ms := by
        rw [List.getD_eq_getElem ms [] hidx]
        exact List.getElem_mem hidx
      have hplen : (true :: ms.getD (if ms.length = 1 then 0 else k) []).length = n := by
        simpa using hmn _ hmrow
      have hkD : k < (attnDots p x).length := by
        rw [attnDots_length]
        exact hk
      have hDmem : (attnDots p x).getD k [] ∈ attnDots p x := by
        rw [List.getD_eq_getElem _ _ hkD]
        exact List.getElem_mem hkD
      obtain ⟨hDlen, hDrows⟩ := attnDots_rows p x _ hDmem
      rw [hxn x hx] at hDlen hDrows
      exact maskFill_getRC _ _ n hplen hDlen hDrows i j hi hj
  · intro hnb
    unfold Attention.forwardBatch attnHeadOutsBatch attnWeightsBatch
    rw [attnMaskedBatch_some, if_pos hw, if_neg hnb]
    rfl

/-- Witness for c2_mask_semantics at a concrete batch-1 call: one
two-position slice, one mask row of length one. -/
theorem c2_witness :
    (([[[1], [1]]] : List Mat) ≠ []) ∧ (([[false]] : List (List Bool)) ≠ []) ∧
      (∀ x ∈ ([[[1], [1]]] : List Mat), x.length = 2) ∧
      (∀ m ∈ ([[false]] : List (List Bool)), m.length + 1 = 2) ∧
      ((((1 : Nat) = 1 ∨ (1 : Nat) = 1) →
        (∃ ys, Attention.forwardBatch (fun _ => 1) attnP1 [[[1], [1]]]
            (some [[false]]) = .ok ys) ∧
        attnMaskedBatch attnP1 [[[1], [1]]] (some [[false]])
          = .ok [List.zipWith (fun k D => maskFill [true, false] D)
              (List.range 1) (attnDots attnP1 [[1], [1]])] ∧
        (∀ x ∈ ([[[1], [1]]] : List Mat), ∀ k, k < 1 → ∀ i j : Nat, i < 2 → j < 2 →
          getRC (maskFill [true, false] ((attnDots attnP1 x).getD k [])) i j
            = if (([true, false] : List Bool).getD i false)
                 && (([true, false] : List Bool).getD j false)
              then getRC ((attnDots attnP1 x).getD k []) i j
              else maskValue)) ∧
      (¬((1 : Nat) = 1 ∨ (1 : Nat) = 1) →
        Attention.forwardBatch (fun _ => 1) attnP1 [[[1], [1]]]
          (some [[false]]) = .error broadcastMsg)) :=
  ⟨by decide, by decide, by decide, by decide,
    c2_mask_semantics (fun _ => 1) attnP1 [[[1], [1]]] [[false]] 2
      (by decide) (by decide) (by decide) (by decide)⟩

/-- C3 counterexample: with dim = 5, heads = 2, dim_head = 3, so dim is not
heads * dim_head, the constructor still succeeds: the source validates
nothing at construction time. -/
theorem c3_counterexample :
    Attention.init 5 2 3 1 (List.replicate 18 (List.replicate 5 0))
        (List.replicate 5 (List.replicate 6 0)) (List.replicate 5 0)
      = .ok { heads := 2, dim_head := 3, scale := 1,
              w_qkv := List.replicate 18 (List.replicate 5 0),
              w_out := List.replicate 5 (List.replicate 6 0),
              b_out := List.replicate 5 0 } ∧ (5 : Nat) ≠ 2 * 3 :=
  ⟨rfl, by decide⟩

/-- C3 (amended): the Attention constructor performs no validation at all:
for every dim, heads, dim_head - whether or not dim equals
heads * dim_head - construction succeeds, and the forward of the resulting
module (without mask) also always succeeds, because to_qkv projects dim to
3 * heads * dim_head and to_out projects heads * dim_head back to dim, so
no shape conflict ever arises from the mismatch. -/
theorem c3_no_construction_validation (dim heads dim_head : Nat) (scale : ℚ)
    (w_qkv w_out : Mat) (b_out : Vec) :
    ∃ p, Attention.init dim heads dim_head scale w_qkv w_out b_out = .ok p ∧
      ∀ (eta : ℚ → ℚ) (x : Mat), ∃ y, Attention.forward eta p x none = .ok y :=
  ⟨_, rfl, fun _ _ => ⟨_, rfl⟩⟩

/-- C4 counterexample: in the concrete call with mask [false] on a
two-position input, query 1 is fully masked, the padded mask bit of key 0 is
false for that query, and yet the softmax assigns it weight 1/2, not 0: mass
does land on masked key positions. -/
theorem c4_counterexample :
    attnWeights (fun _ => 1) attnP1 [[1], [1]] (some [false])
        = .ok [[[1 / 2, 1 / 2], [1 / 2, 1 / 2]]] ∧
      (true :: [false]).getD 1 false = false ∧ ((1 : ℚ) / 2 ≠ 0) := by
  refine ⟨?_, by decide, by norm_num⟩
  norm_num [attnWeights, attnMasked, attnDots, attnQ, attnK, chunk3, headSlice,
    linearNoBias, dot, softmaxRow, maskFill, attnP1, Except.map, List.range_succ,
    Function.comp]

/-- C4 (amended): for every Attention forward call, with or without mask,
each query row of the attention weights of every head sums to 1 over all key
positions - not merely over the unmasked ones: in exact arithmetic masked
positions keep an exponentially suppressed positive share, and a fully
masked query row is uniform over all keys, as the counterexample shows. -/
theorem c4_attention_weights_sum (eta : ℚ → ℚ) (p : AttentionParams) (x : Mat)
    (mask : Option (List Bool)) (Ws : List Mat)
    (hpos : ∀ q, 0 < eta q) (hx : x ≠ [])
    (hok : attnWeights eta p x mask = .ok Ws) :
    ∀ W ∈ Ws, ∀ w ∈ W, w.sum = 1 := by
  intro W hW w hw
  unfold attnWeights at hok
  cases hMk : attnMasked p x mask with
  | error e =>
    rw [hMk] at hok
    exact absurd hok (by simp [Except.map])
  | ok L =>
    rw [hMk] at hok
    simp only [Except.map] at hok
    injection hok with hok
    subst hok
    obtain ⟨M, hM, rfl⟩ := List.mem_map.mp hW
    obtain ⟨r, hr, rfl⟩ := List.mem_map.mp hw
    refine softmaxRow_sum eta hpos r ?_
    have hlen := attnMasked_rows p x mask L hMk M hM r hr
    intro hnil
    apply hx
    apply List.length_eq_zero.mp
    rw [← hlen, hnil]
    rfl

/-- Witness for c4_attention_weights_sum at a concrete unmasked call. -/
theorem c4_witness :
    (∀ q : ℚ, 0 < (fun _ : ℚ => (1 : ℚ)) q) ∧ (([[1]] : Mat) ≠ []) ∧
      attnWeights (fun _ => 1) attnP1 [[1]] none = .ok [[[1]]] ∧
      ∀ W ∈ ([[[1]]] : List Mat), ∀ w ∈ W, w.sum = 1 :=
  ⟨fun _ => one_pos, by decide,
    by norm_num [attnWeights, attnMasked, attnDots, attnQ, attnK, chunk3, headSlice,
      linearNoBias, dot, softmaxRow, attnP1, Except.map, List.range_succ, Function.comp],
    c4_attention_weights_sum (fun _ => 1) attnP1 [[1]] none [[[1]]]
      (fun _ => one_pos) (by decide)
      (by norm_num [attnWeights, attnMasked, attnDots, attnQ, attnK, chunk3, headSlice,
        linearNoBias, dot, softmaxRow, attnP1, Except.map, List.range_succ,
        Function.comp])⟩

/-- Slice lemma for a fully masked query, on one batch element: when the
padded mask bit at query position i is false, the pairwise mask masks the
whole score row i of every head, each entry becomes the same most negative
value, softmax gives the uniform weight 1/n over all n keys, and the
per-head output row i is the unweighted mean of the value rows of that
head. -/
theorem attn_fully_masked_slice (eta : ℚ → ℚ) (p : AttentionParams) (x : Mat)
    (m : List Bool) (i : Nat)
    (hpos : ∀ q, 0 < eta q) (hm : m.length + 1 = x.length) (hi : i < x.length)
    (hbit : (true :: m).getD i true = false) :
    ∃ Ws, attnWeights eta p x (some m) = .ok Ws ∧
      (∀ W ∈ Ws, W.getD i [] = List.replicate x.length ((x.length : ℚ)⁻¹)) ∧
      ∃ Os, attnHeadOuts eta p x (some m) = .ok Os ∧
        ∀ k, k < p.heads →
          (Os.getD k []).getD i []
            = smulVec ((x.length : ℚ)⁻¹) (vsum ((attnV p x).getD k [])) := by
  have hm' : (true :: m).length = x.length := by simpa using hm
  have hn : 0 < x.length := by omega
  have hW : attnWeights eta p x (some m)
      = .ok (((attnDots p x).map (maskFill (true :: m))).map
          (List.map (softmaxRow eta))) := by
    unfold attnWeights
    rw [attnMasked_some p x m hm']
    rfl
  have hrow : ∀ D ∈ attnDots p x,
      ((maskFill (true :: m) D).map (softmaxRow eta)).getD i []
        = List.replicate x.length ((x.length : ℚ)⁻¹) := by
    intro D hD
    obtain ⟨hDlen, hDrows⟩ := attnDots_rows p x D hD
    have hmf := maskFill_row_allMasked (true :: m) D i x.length hm' hDlen hDrows hi hbit
    have hilen : i < (maskFill (true :: m) D).length := by
      rw [maskFill_length]; omega
    have hilen2 : i < ((maskFill (true :: m) D).map (softmaxRow eta)).length := by
      simpa using hilen
    rw [List.getD_eq_getElem _ _ hilen2, List.getElem_map,
      ← List.getD_eq_getElem (maskFill (true :: m) D) [] hilen, hmf]
    exact softmaxRow_replicate eta hpos x.length hn maskValue
  refine ⟨_, hW, ?_, ?_⟩
  · intro W hWmem
    obtain ⟨M0, hM0, rfl⟩ := List.mem_map.mp hWmem
    obtain ⟨D, hD, rfl⟩ := List.mem_map.mp hM0
    exact hrow D hD
  · have hO : attnHeadOuts eta p x (some m)
        = .ok (List.zipWith (fun W V => W.map (fun arow => weightedSum arow V))
            (((attnDots p x).map (maskFill (true :: m))).map (List.map (softmaxRow eta)))
            (attnV p x)) := by
      unfold attnHeadOuts
      rw [hW]
      rfl
    refine ⟨_, hO, ?_⟩
    intro k hk
    have hWsLen : (((attnDots p x).map (maskFill (true :: m))).map
        (List.map (softmaxRow eta))).length = p.heads := by
      simp [attnDots_length]
    have hVLen : (attnV p x).length = p.heads := attnV_length p x
    have hkW : k < (((attnDots p x).map (maskFill (true :: m))).map
        (List.map (softmaxRow eta))).length := by omega
    have hkV : k < (attnV p x).length := by omega
    have hkZ : k < (List.zipWith (fun W V => W.map (fun arow => weightedSum arow V))
        (((attnDots p x).map (maskFill (true :: m))).map (List.map (softmaxRow eta)))
        (attnV p x)).length := by
      rw [List.length_zipWith]; omega
    rw [List.getD_eq_getElem _ _ hkZ, List.getElem_zipWith]
    obtain ⟨M0, hM0, hWkEq⟩ := List.mem_map.mp
      (List.getElem_mem hkW :
        (((attnDots p x).map (maskFill (true :: m))).map
          (List.map (softmaxRow eta)))[k]
          ∈ ((attnDots p x).map (maskFill (true :: m))).map (List.map (softmaxRow eta)))
    obtain ⟨D, hD, hM0Eq⟩ := List.mem_map.mp hM0
    obtain ⟨hDlen, hDrows⟩ := attnDots_rows p x D hD
    have hWkLen : (((attnDots p x).map (maskFill (true :: m))).map
        (List.map (softmaxRow eta)))[k].length = x.length := by
      rw [← hWkEq, List.length_map, ← hM0Eq, maskFill_length, hm', hDlen]
      simp
    have hrowk : (((attnDots p x).map (maskFill (true :: m))).map
        (List.map (softmaxRow eta)))[k].getD i []
          = List.replicate x.length ((x.length : ℚ)⁻¹) := by
      rw [← hWkEq, ← hM0Eq]
      exact hrow D hD
    have hiWk : i < (((attnDots p x).map (maskFill (true :: m))).map
        (List.map (softmaxRow eta)))[k].length := by omega
    have hiMap : i < ((((attnDots p x).map (maskFill (true :: m))).map
        (List.map (softmaxRow eta)))[k].map
          (fun arow => weightedSum arow ((attnV p x)[k]))).length := by
      simpa using hiWk
    rw [List.getD_eq_getElem _ _ hiMap, List.getElem_map]
    rw [List.getD_eq_getElem _ _ hiWk] at hrowk
    rw [hrowk]
    have hVk : (attnV p x)[k].length = x.length :=
      attnV_rows p x _ (List.getElem_mem hkV)
    rw [List.getD_eq_getElem _ _ hkV, ← hVk, weightedSum_replicate]


theorem zipWith_range_right {α β : Type} (f : α → β) (k : Nat) (L : List α)
    (hL : L.length = k) :
    List.zipWith (fun _ D => f D) (List.range k) L = L.map f := by
  apply List.ext_getElem
  · simp [hL]
  · intro i h1 h2
    rw [List.getElem_zipWith, List.getElem_map]

/-- Batch-1 value of the batched masked scores: with a single slice and a
single mask row of the admissible width, the batched mask block reduces to
the per-slice one. -/
theorem attnMaskedBatch_one (p : AttentionParams) (x : Mat) (m : List Bool)
    (hm : m.length + 1 = x.length) :
    attnMaskedBatch p [x] (some [m])
      = .ok [(attnDots p x).map (maskFill (true :: m))] := by
  rw [attnMaskedBatch_some, if_pos (by simpa using hm),
    if_pos (show ([m] : List (List Bool)).length = 1
        ∨ ([m] : List (List Bool)).length = p.heads from Or.inl rfl)]
  simp only [List.map_cons, List.map_nil]
  congr 2
  rw [show (fun (k : Nat) (D : Mat) =>
        maskFill (true :: ([m] : List (List Bool)).getD
          (if ([m] : List (List Bool)).length = 1 then 0 else k) []) D)
      = (fun _ D => maskFill (true :: m) D) from by funext k D; rfl]
  exact zipWith_range_right (maskFill (true :: m)) p.heads (attnDots p x)
    (attnDots_length p x)

/-- Batch-1 bridge: per-slice weights and per-head outputs are the single
slice of the batched ones, and the batched forward then succeeds. -/
theorem attnBatch_one_ok (eta : ℚ → ℚ) (p : AttentionParams) (x : Mat)
    (m : List Bool) (W Os : List Mat) (hm : m.length + 1 = x.length)
    (hW : attnWeights eta p x (some m) = .ok W)
    (hO : attnHeadOuts eta p x (some m) = .ok Os) :
    attnWeightsBatch eta p [x] (some [m]) = .ok [W] ∧
      attnHeadOutsBatch eta p [x] (some [m]) = .ok [Os] ∧
      ∃ ys, Attention.forwardBatch eta p [x] (some [m]) = .ok ys := by
  have hm2 : (true :: m).length = x.length := by simpa using hm
  unfold attnWeights at hW
  rw [attnMasked_some p x m hm2] at hW
  simp only [Except.map] at hW
  injection hW with hW
  unfold attnHeadOuts attnWeights at hO
  rw [attnMasked_some p x m hm2] at hO
  simp only [Except.map] at hO
  injection hO with hO
  subst hW
  subst hO
  refine ⟨?_, ?_, ?_⟩
  · unfold attnWeightsBatch
    rw [attnMaskedBatch_one p x m hm]
    rfl
  · unfold attnHeadOutsBatch attnWeightsBatch
    rw [attnMaskedBatch_one p x m hm]
    rfl
  · unfold Attention.forwardBatch attnHeadOutsBatch attnWeightsBatch
    rw [attnMaskedBatch_one p x m hm]
    exact ⟨_, rfl⟩

/-- C10 counterexample: a batch of two slices with a fully masked query in
each mask row does fail - the mask batch 2 neither is 1 nor equals the head
count 1, so the pairwise mask cannot broadcast against the head axis of the
scores and the fill raises instead of producing uniform weights. -/
theorem c10_counterexample :
    Attention.forwardBatch (fun _ => 1) attnP1 [[[1], [1]], [[1], [1]]]
        (some [[false], [false]]) = .error broadcastMsg ∧
      ((([[false], [false]] : List (List Bool)).getD 0 []).getD 0 true = false) ∧
      ([[false], [false]] : List (List Bool)).length ≠ attnP1.heads := by
  refine ⟨by rfl, by decide, by decide⟩

/-- C10 (amended): for a batch-1 Attention forward call with a supplied mask
whose padded bit at query position i is false, the outer-product pairwise
mask masks that query's entire score row, every entry of the row is filled
with the same most negative value, the call does not fail, softmax assigns
the equal weight 1/n to every one of the n key positions (masked ones
included), and that query's per-head output is the unweighted mean of the
value vectors - no special handling for queries with no attendable keys.
For mask batches of two or more the fill must broadcast the (batch, n, n)
pairwise mask against the head axis of the scores, so such a call fails
unless the batch equals the head count, as the counterexample shows. -/
theorem c10_fully_masked_query (eta : ℚ → ℚ) (p : AttentionParams) (x : Mat)
    (m : List Bool) (i : Nat)
    (hpos : ∀ q, 0 < eta q) (hm : m.length + 1 = x.length) (hi : i < x.length)
    (hbit : (true :: m).getD i true = false) :
    (∃ ys, Attention.forwardBatch eta p [x] (some [m]) = .ok ys) ∧
      ∃ Ws, attnWeightsBatch eta p [x] (some [m]) = .ok [Ws] ∧
        (∀ W ∈ Ws, W.getD i [] = List.replicate x.length ((x.length : ℚ)⁻¹)) ∧
        ∃ Os, attnHeadOutsBatch eta p [x] (some [m]) = .ok [Os] ∧
          ∀ k, k < p.heads →
            (Os.getD k []).getD i []
              = smulVec ((x.length : ℚ)⁻¹) (vsum ((attnV p x).getD k [])) := by
  obtain ⟨Ws, hWs, hWprop, Os, hOs, hOprop⟩ :=
    attn_fully_masked_slice eta p x m i hpos hm hi hbit
  obtain ⟨hWb, hOb, hfwd⟩ := attnBatch_one_ok eta p x m Ws Os hm hWs hOs
  exact ⟨hfwd, Ws, hWb, hWprop, Os, hOb, hOprop⟩

/-- Witness for c10_fully_masked_query: a single slice of two positions,
mask row [false], so the padded mask is [true, false] and query 1 is fully
masked. -/
theorem c10_witness :
    (∀ q : ℚ, 0 < (fun _ : ℚ => (1 : ℚ)) q) ∧
      (([false] : List Bool).length + 1 = ([[1], [1]] : Mat).length) ∧
      (1 < ([[1], [1]] : Mat).length) ∧
      ((true :: [false]).getD 1 true = false) ∧
      ((∃ ys, Attention.forwardBatch (fun _ => 1) attnP1 [[[1], [1]]]
          (some [[false]]) = .ok ys) ∧
        ∃ Ws, attnWeightsBatch (fun _ => 1) attnP1 [[[1], [1]]] (some [[false]])
            = .ok [Ws] ∧
          (∀ W ∈ Ws, W.getD 1 [] = List.replicate ([[1], [1]] : Mat).length
              (((([[1], [1]] : Mat).length : ℚ))⁻¹)) ∧
          ∃ Os, attnHeadOutsBatch (fun _ => 1) attnP1 [[[1], [1]]]
              (some [[false]]) = .ok [Os] ∧
            ∀ k, k < attnP1.heads →
              (Os.getD k []).getD 1 []
                = smulVec (((([[1], [1]] : Mat).length : ℚ))⁻¹)
                    (vsum ((attnV attnP1 [[1], [1]]).getD k []))) :=
  ⟨fun _ => one_pos, by decide, by decide, by decide,
    c10_fully_masked_query (fun _ => 1) attnP1 [[1], [1]] [false] 1
      (fun _ => one_pos) (by decide) (by decide) (by decide)⟩

/-- C7: feeding a 2-D tensor (H,W) to ConvNetSSM.forward produces the same
output as feeding its canonical 4-D form (1,1,H,W): the rank
canonicalization prepends unit batch and channel axes, and the rest of the
pipeline (input batch norm and the seven dilated blocks) is applied
identically after it. -/
theorem c7_rank_canonicalization (m : ConvNetSSMParams) (H W : Nat) (d : List ℚ) :
    ConvNetSSM.forward m ⟨[H, W], d⟩ = ConvNetSSM.forward m ⟨[1, 1, H, W], d⟩ := rfl

/-- C8: for every EGAT instance built by the constructor (in particular with
heads=4, in_size=32) and every input graph containing at least one node of
in-degree 0, the forward call fails with the zero-in-degree error raised by
the first layer, whose allow_zero_in_degree flag is off; the node is never
silently zero-filled. -/
theorem c8_zero_in_degree_rejected (in_size feat_size heads : Nat)
    (agg1 agg2 : DGLGraph → Mat → Mat → List Mat) (eta : ℚ → ℚ)
    (g : DGLGraph) (h efeat : Mat)
    (hzero : g.hasZeroInDegreeNode = true) :
    EGAT.forward eta (EGAT.init in_size feat_size heads agg1 agg2) g h efeat
      = .error zeroInDegreeMsg := by
  simp [EGAT.forward, EGAT.init, EdgeGATConv.forward, hzero]
  rfl

/-- Witness for c8: the two-node graph with the single edge from node 0 to
node 1, so node 0 has in-degree 0, at the configuration heads=4,
in_size=32. -/
theorem c8_witness :
    (DGLGraph.mk 2 [(0, 1)]).hasZeroInDegreeNode = true ∧
      EGAT.forward (fun _ => 1)
          (EGAT.init 32 32 4 (fun _ _ _ => []) (fun _ _ _ => []))
          (DGLGraph.mk 2 [(0, 1)]) [] []
        = .error zeroInDegreeMsg :=
  ⟨by decide, c8_zero_in_degree_rejected 32 32 4 (fun _ _ _ => []) (fun _ _ _ => [])
      (fun _ => 1) (DGLGraph.mk 2 [(0, 1)]) [] [] (by decide)⟩

/-- C9: every sub-layer built as Residual(PreNorm(dim, fn)) maps an input x
with auxiliary arguments kw to fn(LayerNorm(x), kw) + x - the residual
addend is the original, un-normalized input - and every layer of a
constructed Transformer consists of exactly this composition for both its
attention and feed-forward sub-layers. -/
theorem c9_prenorm_residual_composition :
    (∀ (κ : Type) (norm : Mat → Mat) (fn : Mat → κ → Except String Mat) (x : Mat) (kw : κ),
      (Residual.mk (PreNorm.forward (PreNorm.mk norm fn))).forward x kw
        = (fn (norm x) kw).bind (fun y => torchAdd y x)) ∧
    ∀ (eta gelu : ℚ → ℚ) (parts : List TransformerLayerSpec),
      (Transformer.init eta gelu parts).layers = parts.map (fun q =>
        (Residual.mk (PreNorm.forward (PreNorm.mk q.attn_norm
            (fun x mask => Attention.forward eta q.attn x mask))),
         Residual.mk (PreNorm.forward (PreNorm.mk q.ff_norm
            (fun x _ => .ok (FeedForward.forward gelu q.ff x)))))) :=
  ⟨fun _ _ _ _ _ => rfl, fun _ _ _ => rfl⟩


theorem width_of_rect (M : Mat) (r c : Nat) (hM : Rect M r c) (hr : 0 < r) : width M = c := by
  cases M with
  | nil => exact absurd hM.1.symm (by simpa using hr.ne')
  | cons m t => exact hM.2 m (List.mem_cons_self m t)

theorem rect_zeroMat (r c : Nat) : Rect (zeroMat r c) r c := by
  constructor
  · simp [zeroMat]
  · intro row hrow
    rw [List.eq_of_mem_replicate hrow]
    simp

theorem rect_matMul (X Y : Mat) (n k co : Nat) (hX : Rect X n k) (hY : Rect Y k co)
    (hk : 0 < k) : Rect (matMul X Y) n co := by
  constructor
  · simpa [matMul] using hX.1
  · intro row hrow
    unfold matMul at hrow
    obtain ⟨r, _, rfl⟩ := List.mem_map.mp hrow
    simp [width_of_rect Y k co hY hk]

theorem matMulE_ok (X Y : Mat) (n k co : Nat) (hX : Rect X n k) (hY : Rect Y k co) :
    matMulE X Y = .ok (matMul X Y) := by
  unfold matMulE
  rw [if_pos]
  rw [List.all_eq_true]
  intro r hr
  simp [hX.2 r hr, hY.1]

theorem matMulE_err (X Y : Mat) (n k k2 co : Nat) (hX : Rect X n k) (hY : Rect Y k2 co)
    (hn : 0 < n) (hne : k ≠ k2) : matMulE X Y = .error matmulMsg := by
  unfold matMulE
  rw [if_neg]
  rw [List.all_eq_true]
  intro hall
  cases X with
  | nil => exact absurd hX.1.symm (by simpa using hn.ne')
  | cons r t =>
    have hme := hall r (List.mem_cons_self r t)
    rw [hX.2 r (List.mem_cons_self r t), hY.1] at hme
    exact hne (by simpa using hme)

theorem rect_zipWith_vadd (X Y : Mat) (n c : Nat) (hX : Rect X n c) (hY : Rect Y n c) :
    Rect (List.zipWith vadd X Y) n c := by
  constructor
  · simp [List.length_zipWith, hX.1, hY.1]
  · intro row hrow
    obtain ⟨i, hi, rfl⟩ := List.mem_iff_getElem.mp hrow
    have hiX : i < X.length := by
      rw [List.length_zipWith] at hi
      omega
    have hiY : i < Y.length := by
      rw [List.length_zipWith] at hi
      omega
    rw [List.getElem_zipWith]
    unfold vadd
    rw [List.length_zipWith, hX.2 _ (List.getElem_mem hiX), hY.2 _ (List.getElem_mem hiY)]
    simp

theorem torchAdd_eq (X Y : Mat) (n c : Nat) (hX : Rect X n c) (hY : Rect Y n c) :
    torchAdd X Y = .ok (List.zipWith vadd X Y) := by
  unfold torchAdd
  rw [if_pos]
  refine ⟨by rw [hX.1, hY.1], ?_⟩
  cases n with
  | zero =>
    rw [List.length_eq_zero.mp hX.1, List.length_eq_zero.mp hY.1]
  | succ n0 =>
    rw [width_of_rect X _ c hX (Nat.succ_pos n0), width_of_rect Y _ c hY (Nat.succ_pos n0)]

theorem torchAdd_err (X Y : Mat) (n c1 c2 : Nat) (hX : Rect X n c1) (hY : Rect Y n c2)
    (hn : 0 < n) (h12 : c1 ≠ c2) (h1 : c1 ≠ 1) (h2 : c2 ≠ 1) :
    torchAdd X Y = .error sizeMismatchMsg := by
  unfold torchAdd
  rw [width_of_rect X n c1 hX hn, width_of_rect Y n c2 hY hn]
  rw [if_neg (by tauto), if_neg (by tauto)]

theorem rect_rangeTable (R C : Nat) (f : Nat → Nat → ℚ) :
    Rect ((List.range R).map (fun i => (List.range C).map (fun j => f i j))) R C := by
  constructor
  · simp
  · intro row hrow
    obtain ⟨i, _, rfl⟩ := List.mem_map.mp hrow
    simp

theorem torchAdd_colBroadcastRight (X Y : Mat) (n c : Nat) (hX : Rect X n c) (hY : Rect Y n 1)
    (hc : c ≠ 1) (hcpos : 0 < c) (hn : 0 < n) :
    ∃ Z, torchAdd X Y = .ok Z ∧ Rect Z n c := by
  unfold torchAdd
  simp only [width_of_rect X n c hX hn, width_of_rect Y n 1 hY hn, hX.1, hY.1]
  rw [if_neg (by tauto), if_pos (by tauto)]
  refine ⟨_, rfl, ?_⟩
  have h1 : max n n = n := by omega
  have h2 : max c 1 = c := by omega
  simp only [h1, h2]
  exact rect_rangeTable n c _

theorem torchAdd_rowBroadcast (X : Mat) (b : Vec) (n c : Nat) (hX : Rect X n c)
    (hb : b.length = c) (hn : 0 < n) (hc : 0 < c) :
    ∃ Z, torchAdd X [b] = .ok Z ∧ Rect Z n c := by
  rcases Nat.eq_or_lt_of_le hn with h1 | hlt
  · subst h1
    have hbr : Rect [b] 1 c := by
      constructor
      · rfl
      · intro row hrow
        rw [List.eq_of_mem_singleton hrow]
        exact hb
    exact ⟨_, torchAdd_eq X [b] 1 c hX hbr, rect_zipWith_vadd X [b] 1 c hX hbr⟩
  · have hwb : width [b] = c := hb
    unfold torchAdd
    simp only [width_of_rect X n c hX hn, hX.1, hwb, List.length_singleton]
    rw [if_neg (by omega), if_pos (by tauto)]
    refine ⟨_, rfl, ?_⟩
    have h1 : max n 1 = n := by omega
    have h2 : max c c = c := by omega
    simp only [h1, h2]
    exact rect_rangeTable n c _

theorem exceptBind_ok {ε α β : Type} (a : α) (f : α → Except ε β) :
    (Except.ok a >>= f) = f a := rfl

theorem rect_eluMat (eta : ℚ → ℚ) (M : Mat) (n c : Nat) (hM : Rect M n c) :
    Rect (eluMat eta M) n c := by
  constructor
  · simp [eluMat, hM.1]
  · intro row hrow
    unfold eluMat at hrow
    obtain ⟨r, hr, rfl⟩ := List.mem_map.mp hrow
    simp [hM.2 r hr]

theorem rect_normed (degs : List ℚ) (rst : Mat) (n c : Nat) (hd : degs.length = n)
    (hr : Rect rst n c) :
    Rect (List.zipWith (fun d row => row.map (fun v => v / d)) degs rst) n c := by
  constructor
  · simp [List.length_zipWith, hd, hr.1]
  · intro row hrow
    obtain ⟨i, hi, rfl⟩ := List.mem_iff_getElem.mp hrow
    have hir : i < rst.length := by
      rw [List.length_zipWith] at hi
      omega
    rw [List.getElem_zipWith]
    simp [hr.2 _ (List.getElem_mem hir)]

theorem denseGraphConv_ok (w : Mat) (b : Vec) (A h : Mat) (n fi fo : Nat)
    (hA : Rect A n n) (hh : Rect h n fi) (hw : Rect w fi fo) (hb : b.length = fo)
    (hn : 0 < n) (hfi : 0 < fi) (hfo : 0 < fo) :
    ∃ C, denseGraphConv ⟨w, b⟩ A h = .ok C ∧ Rect C n fo := by
  have hagg : Rect (matMul A h) n fi := rect_matMul A h n n fi hA hh hn
  have hrst : Rect (matMul (matMul A h) w) n fo := rect_matMul _ w n fi fo hagg hw hfi
  have hdegs : (A.map (fun row => row.sum)).length = n := by simp [hA.1]
  have hnorm := rect_normed (A.map (fun row => row.sum)) (matMul (matMul A h) w) n fo
    hdegs hrst
  obtain ⟨Z, hZ, hZr⟩ := torchAdd_rowBroadcast _ b n fo hnorm hb hn hfo
  refine ⟨Z, ?_, hZr⟩
  unfold denseGraphConv
  simp only [matMulE_ok A h n n fi hA hh, exceptBind_ok,
    matMulE_ok (matMul A h) w n fi fo hagg hw]
  exact hZ

theorem denseGraphConv_err (w : Mat) (b : Vec) (A h : Mat) (n fi fw fo : Nat)
    (hA : Rect A n n) (hh : Rect h n fi) (hw : Rect w fw fo)
    (hn : 0 < n) (hne : fi ≠ fw) :
    denseGraphConv ⟨w, b⟩ A h = .error matmulMsg := by
  have hagg : Rect (matMul A h) n fi := rect_matMul A h n n fi hA hh hn
  unfold denseGraphConv
  simp only [matMulE_ok A h n n fi hA hh, exceptBind_ok,
    matMulE_err (matMul A h) w n fi fw fo hagg hw hn hne]
  rfl

theorem dot_zero_left (k : Nat) (l : Vec) : dot (List.replicate k 0) l = 0 := by
  unfold dot
  induction l generalizing k with
  | nil => simp
  | cons y ys ih =>
    cases k with
    | zero => simp
    | succ k0 =>
      rw [List.replicate_succ, List.zipWith_cons_cons, List.sum_cons, ih k0]
      simp

theorem matMul_zero_left (n m : Nat) (Y : Mat) :
    matMul (zeroMat n m) Y = zeroMat n (width Y) := by
  unfold matMul zeroMat
  rw [List.map_replicate]
  congr 1
  rw [List.map_congr_left (fun j _ => dot_zero_left m (Y.map (fun yr => yr.getD j 0)))]
  rw [List.map_const', List.length_range]

theorem degs_zero (n : Nat) :
    (zeroMat n n).map (fun row => row.sum) = List.replicate n 0 := by
  unfold zeroMat
  rw [List.map_replicate]
  simp

theorem normed_zero (n c : Nat) :
    List.zipWith (fun d row => row.map (fun v => v / d))
        (List.replicate n (0 : ℚ)) (zeroMat n c) = zeroMat n c := by
  unfold zeroMat
  rw [List.zipWith_replicate]
  simp [zero_div]

theorem getD_replicate_zero (k j : Nat) : (List.replicate k (0 : ℚ)).getD j 0 = 0 := by
  rcases Nat.lt_or_ge j k with hj | hj
  · rw [List.getD_eq_getElem _ _ (by simpa using hj), List.getElem_replicate]
  · rw [List.getD_eq_default _ _ (by simpa using hj)]

theorem getRC_zeroMat (r c i j : Nat) : getRC (zeroMat r c) i j = 0 := by
  unfold getRC zeroMat
  rcases Nat.lt_or_ge i r with hi | hi
  · rw [List.getD_eq_getElem (List.replicate r (List.replicate c 0)) []
      (by simpa using hi), List.getElem_replicate]
    exact getD_replicate_zero c j
  · rw [List.getD_eq_default (List.replicate r (List.replicate c 0)) []
      (by simpa using hi)]
    rfl

theorem getRC_singleton_zero (c i j : Nat) : getRC [List.replicate c 0] i j = 0 := by
  unfold getRC
  cases i with
  | zero => exact getD_replicate_zero c j
  | succ i0 => rfl

theorem getElem_zeroMat (r c i : Nat) (h : i < (zeroMat r c).length) :
    (zeroMat r c)[i] = List.replicate c 0 := by
  unfold zeroMat at h ⊢
  simp

theorem torchAdd_zeroBias (n c : Nat) (hn : 0 < n) (hc : 0 < c) :
    torchAdd (zeroMat n c) [List.replicate c 0] = .ok (zeroMat n c) := by
  have hwz : width (zeroMat n c) = c := width_of_rect _ n c (rect_zeroMat n c) hn
  have hwb : width [List.replicate c (0 : ℚ)] = c := by simp [width]
  have hlz : (zeroMat n c).length = n := (rect_zeroMat n c).1
  by_cases h1 : n = 1
  · subst h1
    unfold torchAdd
    rw [if_pos ⟨by simp [zeroMat], by rw [hwz, hwb]⟩]
    unfold zeroMat vadd
    rw [List.replicate_one, List.zipWith_cons_cons, List.zipWith_replicate]
    simp
  · unfold torchAdd
    rw [if_neg (by rw [hlz]; simp [h1]), if_pos (by simp [hwz, hwb])]
    congr 1
    apply List.ext_getElem
    · simp [hlz]
      omega
    · intro i hi1 hi2
      rw [List.getElem_map, List.getElem_range]
      apply List.ext_getElem
      · simp [hwz, hwb, getElem_zeroMat]
      · intro j hj1 hj2
        simp [List.getElem_map, List.getElem_range, getRC_zeroMat,
          getRC_singleton_zero, getElem_zeroMat]

theorem vadd_zero_left (r : Vec) : vadd (List.replicate r.length 0) r = r := by
  unfold vadd
  rw [zipWith_replicate_left]
  simp

theorem zipWith_vadd_zero (h : Mat) (c : Nat) (hrows : ∀ row ∈ h, row.length = c) :
    List.zipWith vadd (List.replicate h.length (List.replicate c 0)) h = h := by
  induction h with
  | nil => simp
  | cons r t ih =>
    rw [List.length_cons, List.replicate_succ, List.zipWith_cons_cons]
    congr 1
    · rw [show List.replicate c (0 : ℚ) = List.replicate r.length 0 by
        rw [hrows r (List.mem_cons_self r t)]]
      exact vadd_zero_left r
    · exact ih (fun row hrow => hrows row (List.mem_cons_of_mem r hrow))

theorem torchAdd_zeroMat_left (h : Mat) (n c : Nat) (hh : Rect h n c) :
    torchAdd (zeroMat n c) h = .ok h := by
  rw [torchAdd_eq (zeroMat n c) h n c (rect_zeroMat n c) hh]
  unfold zeroMat
  rw [show n = h.length from hh.1.symm]
  rw [zipWith_vadd_zero h c hh.2]

theorem eluMat_zero (eta : ℚ → ℚ) (heta : eta 0 = 1) (n c : Nat) :
    eluMat eta (zeroMat n c) = zeroMat n c := by
  unfold eluMat zeroMat
  rw [List.map_replicate, List.map_replicate]
  have hz : elu eta 0 = 0 := by simp [elu, heta]
  rw [hz]

/-- C6 counterexample: a GCN_DENSE instance whose layer-1 bias is 1 (a value
reachable by external training), on the all-zero adjacency, yields
ELU(bias) + h, not h: the convolution contributes its bias, not zero. -/
theorem c6_counterexample :
    gcnLayer1 (fun _ => 1) (GCN_DENSE.init 1 1 [[5]] [1] [[1]] [0]) [[0]] [[0]]
        = .ok [[1]] ∧ ([[1]] : Mat) ≠ [[0]] := by
  refine ⟨?_, by decide⟩
  norm_num [gcnLayer1, GCN_DENSE.init, denseGraphConv, matMulE, matMul, dot, width,
    torchAdd, getRC, vadd, eluMat, elu, zeroMat, exceptBind_ok, List.range_succ]

/-- C6 (amended): for every GCN_DENSE instance whose layer-1 bias is zero
(its value at construction, before external training) and for square
configurations in_size = hid_size, when the adjacency matrix is all zero the
layer-1 graph convolution contributes zero, so the value after layer 1 and
before dropout is ELU(0) + h = h, an identity-like baseline. -/
theorem c6_zero_adjacency (eta : ℚ → ℚ) (n w : Nat) (h w1 w2 : Mat) (b2 : Vec)
    (heta : eta 0 = 1) (hh : Rect h n w) (hw1 : Rect w1 w w)
    (hn : 0 < n) (hw : 0 < w) :
    gcnLayer1 eta (GCN_DENSE.init w w w1 (List.replicate w 0) w2 b2) (zeroMat n n) h
      = .ok h := by
  unfold gcnLayer1 GCN_DENSE.init denseGraphConv
  simp only [matMulE_ok (zeroMat n n) h n n w (rect_zeroMat n n) hh, exceptBind_ok]
  rw [matMul_zero_left n n h]
  simp only [width_of_rect h n w hh hn]
  simp only [matMulE_ok (zeroMat n w) w1 n w w (rect_zeroMat n w) hw1, exceptBind_ok]
  rw [matMul_zero_left n w w1]
  simp only [width_of_rect w1 w w hw1 hw]
  rw [degs_zero n, normed_zero n w, torchAdd_zeroBias n w hn hw]
  simp only [exceptBind_ok]
  rw [eluMat_zero eta heta n w]
  exact torchAdd_zeroMat_left h n w hh

/-- Witness for c6_zero_adjacency at a one-node configuration. -/
theorem c6_witness :
    ((fun _ : ℚ => (1 : ℚ)) 0 = 1) ∧ Rect [[2]] 1 1 ∧ Rect [[3]] 1 1 ∧ 0 < 1 ∧
      gcnLayer1 (fun _ => 1) (GCN_DENSE.init 1 1 [[3]] (List.replicate 1 0) [[1]] [0])
        (zeroMat 1 1) [[2]] = .ok [[2]] :=
  ⟨rfl, by decide, by decide, by decide,
    c6_zero_adjacency (fun _ => 1) 1 1 [[2]] [[3]] [[1]] [0] rfl
      (by decide) (by decide) (by decide) (by decide)⟩

/-- C5 counterexample: with in_size = 2 and hid_size = 1 the forward call
succeeds - the residual additions broadcast the width-1 convolution outputs
across the width-2 features and the second layer receives a width-2 input
matching its in_size - so the forward computation is not well-defined only
under in_size = hid_size. -/
theorem c5_counterexample :
    GCN_DENSE.forward (fun _ => 1) (GCN_DENSE.init 2 1 [[1], [1]] [0] [[1], [1]] [0])
        [[0, 0], [0, 0]] [[1, 2], [3, 4]] = .ok [[1, 2], [3, 4]] ∧ (2 : Nat) ≠ 1 := by
  refine ⟨?_, by decide⟩
  norm_num [GCN_DENSE.forward, gcnLayer1, GCN_DENSE.init, denseGraphConv, matMulE,
    matMul, dot, width, torchAdd, getRC, vadd, eluMat, elu, exceptBind_ok,
    List.range_succ]

/-- C5 (amended): for a GCN_DENSE instance on a graph of n nodes with
well-formed parameters, the forward computation is well-defined only under
in_size = hid_size or hid_size = 1 (where the engine broadcasts the width-1
residual additions, as the counterexample instantiates); under the
precondition in_size = hid_size every forward call succeeds and returns a
nodes by hid_size matrix, both because the residual addition of the
hid_size-wide layer-1 output to the in_size-wide input h and because the
second layer, constructed with input width in_size but fed the layer-1
output, require the equality. -/
theorem c5_gcn_dense_shape (eta : ℚ → ℚ) (n insz hid : Nat) (A h w1 : Mat) (b1 : Vec)
    (w2 : Mat) (b2 : Vec)
    (hA : Rect A n n) (hh : Rect h n insz) (hw1 : Rect w1 insz hid)
    (hb1 : b1.length = hid) (hw2 : Rect w2 insz hid) (hb2 : b2.length = hid)
    (hn : 0 < n) (hin : 0 < insz) (hhid : 0 < hid) :
    ((insz = hid) →
      ∃ out, GCN_DENSE.forward eta (GCN_DENSE.init insz hid w1 b1 w2 b2) A h
          = .ok out ∧ Rect out n hid) ∧
    ((insz ≠ hid) → (hid ≠ 1) →
      GCN_DENSE.forward eta (GCN_DENSE.init insz hid w1 b1 w2 b2) A h
        = .error matmulMsg ∨
      GCN_DENSE.forward eta (GCN_DENSE.init insz hid w1 b1 w2 b2) A h
        = .error sizeMismatchMsg) := by
  constructor
  · intro heq
    subst heq
    obtain ⟨C1, hC1, hC1r⟩ := denseGraphConv_ok w1 b1 A h n insz insz hA hh hw1 hb1 hn hin hin
    have hE : Rect (eluMat eta C1) n insz := rect_eluMat eta C1 n insz hC1r
    have hadd1 := torchAdd_eq (eluMat eta C1) h n insz hE hh
    have hh1 : Rect (List.zipWith vadd (eluMat eta C1) h) n insz :=
      rect_zipWith_vadd _ _ n insz hE hh
    obtain ⟨C2, hC2, hC2r⟩ := denseGraphConv_ok w2 b2 A _ n insz insz hA hh1 hw2 hb2 hn hin hin
    have hadd2 := torchAdd_eq C2 _ n insz hC2r hh1
    refine ⟨_, ?_, rect_zipWith_vadd C2 _ n insz hC2r hh1⟩
    unfold GCN_DENSE.forward gcnLayer1 GCN_DENSE.init
    simp only [hC1, exceptBind_ok, hadd1, hC2, hadd2]
  · intro hne h1ne
    obtain ⟨C1, hC1, hC1r⟩ := denseGraphConv_ok w1 b1 A h n insz hid hA hh hw1 hb1 hn hin hhid
    have hE : Rect (eluMat eta C1) n hid := rect_eluMat eta C1 n hid hC1r
    by_cases hin1 : insz = 1
    · subst hin1
      obtain ⟨Z, hZ, hZr⟩ := torchAdd_colBroadcastRight (eluMat eta C1) h n hid hE hh
        h1ne hhid hn
      have herr := denseGraphConv_err w2 b2 A Z n hid 1 hid hA hZr hw2 hn h1ne
      left
      unfold GCN_DENSE.forward gcnLayer1 GCN_DENSE.init
      simp only [hC1, exceptBind_ok, hZ, herr]
      rfl
    · have herr := torchAdd_err (eluMat eta C1) h n hid insz hE hh hn
        (fun hc => hne hc.symm) h1ne hin1
      right
      unfold GCN_DENSE.forward gcnLayer1 GCN_DENSE.init
      simp only [hC1, exceptBind_ok, herr]
      rfl

/-- Witness for c5_gcn_dense_shape at the one-node unit-width
configuration. -/
theorem c5_witness :
    (Rect [[0]] 1 1 ∧ Rect [[1]] 1 1 ∧ 0 < 1) ∧
      (((1 : Nat) = 1 →
        ∃ out, GCN_DENSE.forward (fun _ => 1) (GCN_DENSE.init 1 1 [[1]] [0] [[1]] [0])
            [[0]] [[1]] = .ok out ∧ Rect out 1 1) ∧
      ((1 : Nat) ≠ 1 → (1 : Nat) ≠ 1 →
        GCN_DENSE.forward (fun _ => 1) (GCN_DENSE.init 1 1 [[1]] [0] [[1]] [0])
            [[0]] [[1]] = .error matmulMsg ∨
        GCN_DENSE.forward (fun _ => 1) (GCN_DENSE.init 1 1 [[1]] [0] [[1]] [0])
            [[0]] [[1]] = .error sizeMismatchMsg)) :=
  ⟨⟨by decide, by decide, by decide⟩,
    c5_gcn_dense_shape (fun _ => 1) 1 1 1 [[0]] [[1]] [[1]] [0] [[1]] [0]
      (by decide) (by decide) (by decide) (by decide) (by decide) (by decide)
      (by decide) (by decide) (by decide)⟩
